import Mathlib

/-!
Verification of the "Hello Genetic Programming" notebook: a toy genetic
algorithm that evolves a fixed-size pool of character strings toward a
target string.

Characters are modelled by their ordinal code points as integers (the
Python code does all character arithmetic through ord and chr, and the
mutation step can leave any fixed alphabet, so Int is the honest carrier).
A genome (dna) is a list of code points; a candidate pairs a genome with
its cached fitness, mirroring the notebook's dict with keys dna and
fitness.  Randomness is modelled by passing the outcomes of the random
draws explicitly.
-/

namespace HelloGP

/-- Genome: a list of character ordinals. -/
abbrev Dna := List Int

/-- Candidate: the notebook's dict with a dna list and a cached fitness. -/
structure Candidate where
  dna : Dna
  fitness : Int
deriving Repr, DecidableEq

/-- Placeholder candidate used only for out-of-range list accesses that the
Python code never performs on the inputs the theorems consider. -/
def noCand : Candidate := { dna := [], fitness := 0 }

/-- GENES = string.letters plus the three characters bang, comma, space:
the code points of a-z, A-Z, then 33, 44, 32. -/
def GENES : List Int :=
  ((List.range 26).map (fun i => (97 + i : Int))) ++
  ((List.range 26).map (fun i => (65 + i : Int))) ++
  [33, 44, 32]

/-- calc_fitness from the notebook: iterate i over range(len(source)),
accumulating (ord(target[i]) - ord(source[i]))^2.  Indexing target[i]
raises IndexError when i is past the end of target, which the embedding
renders as none; the structural recursion below walks the two lists in
lockstep and fails exactly when source outlives target. -/
def calc_fitness : Dna → Dna → Option Int
  | [], _ => some 0
  | _ :: _, [] => none
  | s :: ss, t :: ts => (calc_fitness ss ts).map (fun v => (t - s) ^ 2 + v)

/-- Python slice read parent[start:stop] followed by slice assignment
child[start:stop] = that slice, for 0 ≤ start ≤ stop ≤ len child:
positions start..stop-1 of child are overwritten by the same positions
of src. -/
def setSlice (child : Dna) (start stop : Nat) (src : Dna) : Dna :=
  child.take start ++ (src.drop start).take (stop - start) ++ child.drop stop

/-- mutate from the notebook.  The random draws randint(0, len-1) for
start, stop and char_pos, and randint(-1, 1) for the ordinal nudge, are
passed in as start0, stop0, char_pos, delta.  child_dna starts as a copy
of parent1's dna; start/stop are swapped into order; the slice is copied
from parent2; one position is nudged by delta via chr(ord(c) + delta);
the child's fitness against target is attached. -/
def mutate (parent1 parent2 : Candidate) (target : Dna)
    (start0 stop0 char_pos : Nat) (delta : Int) : Candidate :=
  let start := if start0 > stop0 then stop0 else start0
  let stop := if start0 > stop0 then start0 else stop0
  let child1 := setSlice parent1.dna start stop parent2.dna
  let child2 := child1.set char_pos (child1.getD char_pos 0 + delta)
  { dna := child2, fitness := (calc_fitness child2 target).getD 0 }

/-- random_parent from the notebook: index the pool at the drawn index
(randint(0, len-1) always draws in range on a nonempty pool). -/
def random_parent (gene_pool : List Candidate) (index : Nat) : Candidate :=
  gene_pool.getD index noCand

/-- Comparison key of gene_pool.sort(key=lambda c: c[fitness]). -/
def fitLe (a b : Candidate) : Prop := a.fitness ≤ b.fitness

instance : DecidableRel fitLe := fun a b =>
  inferInstanceAs (Decidable (a.fitness ≤ b.fitness))

instance : IsTotal Candidate fitLe := ⟨fun a b => le_total a.fitness b.fitness⟩

instance : IsTrans Candidate fitLe := ⟨fun _ _ _ hab hbc => le_trans hab hbc⟩

/-- gene_pool.sort(key=lambda candidate: candidate[fitness]): a stable
sort by fitness ascending. -/
def sortPool (gene_pool : List Candidate) : List Candidate :=
  List.insertionSort fitLe gene_pool

/-- Outcomes of the five random draws one loop iteration makes: the two
parent indices, the two crossover indices, the mutation position, and the
ordinal nudge. -/
structure Draws where
  p1 : Nat
  p2 : Nat
  start0 : Nat
  stop0 : Nat
  char_pos : Nat
  delta : Int
deriving Repr, DecidableEq

/-- Ranges randint guarantees for the draws of one iteration, for a pool
of N candidates whose genomes have length L. -/
def Draws.Valid (N L : Nat) (d : Draws) : Prop :=
  d.p1 < N ∧ d.p2 < N ∧ d.start0 < L ∧ d.stop0 < L ∧ d.char_pos < L ∧
    -1 ≤ d.delta ∧ d.delta ≤ 1

instance (N L : Nat) (d : Draws) : Decidable (d.Valid N L) :=
  inferInstanceAs (Decidable (_ ∧ _))

/-- Child produced in one loop iteration: parents are drawn from the pool
after the in-place sort, then mutated. -/
def childOf (target : Dna) (gene_pool : List Candidate) (d : Draws) : Candidate :=
  mutate (random_parent (sortPool gene_pool) d.p1)
    (random_parent (sortPool gene_pool) d.p2)
    target d.start0 d.stop0 d.char_pos d.delta

/-- One iteration of the evolution loop acting on the pool: sort in place,
produce a child, and if the child's fitness beats the worst (last) member,
overwrite that member (gene_pool[-1] = child). -/
def stepPool (target : Dna) (gene_pool : List Candidate) (d : Draws) : List Candidate :=
  let s := sortPool gene_pool
  let child := childOf target gene_pool d
  if child.fitness < (s.getLastD noCand).fitness then s.dropLast ++ [child] else s

/-- Pool after g full iterations, with draws g supplying iteration g's
random outcomes. -/
def pools (target : Dna) (draws : Nat → Draws) (pool0 : List Candidate) : Nat → List Candidate
  | 0 => pool0
  | g + 1 => stepPool target (pools target draws pool0 g) (draws g)

/-- Candidate appended to fittest at iteration g: gene_pool[0] right after
the sort at the top of the loop body. -/
def recordAt (target : Dna) (draws : Nat → Draws) (pool0 : List Candidate) (g : Nat) : Candidate :=
  (sortPool (pools target draws pool0 g)).headD noCand

/-- History of fittest entries appended through the end of iteration g. -/
def historyUpTo (target : Dna) (draws : Nat → Draws) (pool0 : List Candidate) (g : Nat) :
    List Candidate :=
  (List.range (g + 1)).map (recordAt target draws pool0)

/-- The while-True loop, fuelled so the embedding is total: run iterations
from counter g on, stopping as the code does when gene_pool[0] has fitness
0 after the replacement, and returning the stopping counter and the final
pool.  none means the fuel ran out before the loop's own condition fired;
the fuel is a modelling device, not a generation cap of the code. -/
def runLoop (target : Dna) (draws : Nat → Draws) :
    Nat → List Candidate → Nat → Option (Nat × List Candidate)
  | 0, _, _ => none
  | fuel + 1, gene_pool, g =>
    let pool1 := stepPool target gene_pool (draws g)
    if (pool1.headD noCand).fitness = 0 then some (g, pool1)
    else runLoop target draws fuel pool1 (g + 1)

/-- The loop's stopping condition holds at iteration g: the pool right
after iteration g's replacement has a fitness-0 member in front. -/
def stopsAt (target : Dna) (draws : Nat → Draws) (pool0 : List Candidate) (g : Nat) : Prop :=
  ((pools target draws pool0 (g + 1)).headD noCand).fitness = 0

instance (target : Dna) (draws : Nat → Draws) (pool0 : List Candidate) (g : Nat) :
    Decidable (stopsAt target draws pool0 g) :=
  inferInstanceAs (Decidable (_ = _))

/-- Initial pool: POPULATION candidates, each dna a list of len(target)
draws of random.choice(GENES); choice i g is the gene drawn for position g
of candidate i. -/
def initPool (choice : Nat → Nat → Int) (N : Nat) (target : Dna) : List Candidate :=
  (List.range N).map (fun i =>
    let dna := (List.range target.length).map (fun g => choice i g)
    { dna := dna, fitness := (calc_fitness dna target).getD 0 })

/-- Description of reproduce taken from the spec's own words, to compare
with the source's mutate: copy parentA's genome, order the two drawn
indices, overwrite the ordered index range with parentB's genome
positionwise, then bump the ordinal at one drawn position by delta, and
attach the fitness against the target. -/
def reproduceSpec (parentA parentB : Candidate) (target : Dna)
    (i j pos : Nat) (delta : Int) : Candidate :=
  let lo := min i j
  let hi := max i j
  let crossed := (List.range parentA.dna.length).map
    (fun k => if lo ≤ k ∧ k < hi then parentB.dna.getD k 0 else parentA.dna.getD k 0)
  let mutated := (List.range crossed.length).map
    (fun k => if k = pos then crossed.getD k 0 + delta else crossed.getD k 0)
  { dna := mutated, fitness := (calc_fitness mutated target).getD 0 }

/-! ### Heap model of the notebook's list aliasing

Python dna values are mutable list objects.  To state that reproduction
does not mutate its parents, the dna store is modelled as a heap of lists
addressed by allocation index; a candidate holds a reference into the
heap together with its fitness. -/

/-- Candidate whose dna field is a reference into the heap. -/
structure CandR where
  dnaRef : Nat
  fitness : Int
deriving Repr, DecidableEq

/-- mutate at the heap level, performing the same object operations the
Python code does: read both parents' lists, allocate a fresh copy of
parent1's list (child_dna = parent1[dna][:]), mutate only that fresh list
by the slice assignment and the point mutation, and return the new heap
with the child record referring to the fresh list. -/
def mutateH (heap : List Dna) (parent1 parent2 : CandR) (target : Dna)
    (start0 stop0 char_pos : Nat) (delta : Int) : List Dna × CandR :=
  let p1dna := heap.getD parent1.dnaRef []
  let p2dna := heap.getD parent2.dnaRef []
  let childRef := heap.length
  let heap1 := heap ++ [p1dna]
  let start := if start0 > stop0 then stop0 else start0
  let stop := if start0 > stop0 then start0 else stop0
  let heap2 := heap1.set childRef (setSlice (heap1.getD childRef []) start stop p2dna)
  let cd := heap2.getD childRef []
  let heap3 := heap2.set childRef (cd.set char_pos (cd.getD char_pos 0 + delta))
  (heap3, { dnaRef := childRef, fitness := (calc_fitness (heap3.getD childRef []) target).getD 0 })

/-! ### Concrete inputs used by witness theorems -/

/-- Concrete target used by witnesses: the single character A. -/
def tgtW : Dna := [65]

/-- Concrete two-candidate pool used by witnesses. -/
def poolW : List Candidate := [{ dna := [66], fitness := 1 }, { dna := [67], fitness := 4 }]

/-- Concrete draw outcomes used by witnesses. -/
def dW : Draws := ⟨0, 0, 0, 0, 0, 0⟩

/-- Pool of two candidates used by the convergence witness. -/
def poolW2 : List Candidate := [{ dna := [65], fitness := 0 }, { dna := [66], fitness := 1 }]

/-- Constant draw stream used by witnesses. -/
def drawsW : Nat → Draws := fun _ => dW

/-- Pool poolW2 one converged iteration later. -/
def poolW2done : List Candidate := [{ dna := [65], fitness := 0 }, { dna := [65], fitness := 0 }]

/-! ### Fitness function lemmas -/

/-- Shorthand for the squared-difference sum the fitness loop accumulates. -/
def sqDiffSum (source target : Dna) : Int :=
  ((source.zip target).map (fun p => (p.2 - p.1) ^ 2)).sum

theorem calc_fitness_eq_some_of_le :
    ∀ {source target : Dna}, source.length ≤ target.length →
      calc_fitness source target = some (sqDiffSum source target)
  | [], _, _ => by simp [calc_fitness, sqDiffSum]
  | s :: ss, [], h => by simp at h
  | s :: ss, t :: ts, h => by
    have ih := @calc_fitness_eq_some_of_le ss ts (by simpa using h)
    simp [calc_fitness, sqDiffSum, ih]

theorem calc_fitness_eq_none_of_lt :
    ∀ {source target : Dna}, target.length < source.length →
      calc_fitness source target = none
  | [], _, h => by simp at h
  | s :: ss, [], _ => rfl
  | s :: ss, t :: ts, h => by
    have ih := @calc_fitness_eq_none_of_lt ss ts (by simpa using h)
    simp [calc_fitness, ih]

theorem sqDiffSum_nonneg (source target : Dna) : 0 ≤ sqDiffSum source target := by
  refine List.sum_nonneg ?_
  intro x hx
  simp only [List.mem_map] at hx
  obtain ⟨p, _, rfl⟩ := hx
  exact sq_nonneg _

theorem sqDiffSum_eq_zero_iff :
    ∀ {source target : Dna}, source.length = target.length →
      (sqDiffSum source target = 0 ↔ source = target)
  | [], [], _ => by simp [sqDiffSum]
  | [], _ :: _, h => by simp at h
  | _ :: _, [], h => by simp at h
  | s :: ss, t :: ts, h => by
    have hlen : ss.length = ts.length := by simpa using h
    have ih := sqDiffSum_eq_zero_iff hlen
    have hsq : (0 : Int) ≤ (t - s) ^ 2 := sq_nonneg _
    have hrest : 0 ≤ sqDiffSum ss ts := sqDiffSum_nonneg ss ts
    have hexp : sqDiffSum (s :: ss) (t :: ts) = (t - s) ^ 2 + sqDiffSum ss ts := by
      simp [sqDiffSum]
    rw [hexp]
    rw [add_eq_zero_iff_of_nonneg hsq hrest]
    constructor
    · rintro ⟨h1, h2⟩
      have : t - s = 0 := by
        have := sq_eq_zero_iff.mp h1
        exact this
      have hst : s = t := by omega
      exact by simp [hst, ih.mp h2]
    · intro hEq
      rw [List.cons_eq_cons] at hEq
      refine ⟨by simp [hEq.1], ih.mpr hEq.2⟩

/-- C2: for genomes and targets of equal length, calc_fitness returns the
sum over all positions of the squared ordinal difference; that value is
nonnegative and is zero exactly when the genome equals the target
character for character. -/
theorem calc_fitness_spec (genome target : Dna) (h : genome.length = target.length) :
    calc_fitness genome target = some (sqDiffSum genome target) ∧
    0 ≤ sqDiffSum genome target ∧
    (sqDiffSum genome target = 0 ↔ genome = target) :=
  ⟨calc_fitness_eq_some_of_le (le_of_eq h), sqDiffSum_nonneg genome target,
    sqDiffSum_eq_zero_iff h⟩

theorem calc_fitness_spec_witness :
    ([72, 105] : Dna).length = ([72, 106] : Dna).length ∧
    (calc_fitness [72, 105] [72, 106] = some (sqDiffSum [72, 105] [72, 106]) ∧
     0 ≤ sqDiffSum [72, 105] [72, 106] ∧
     (sqDiffSum [72, 105] [72, 106] = 0 ↔ ([72, 105] : Dna) = [72, 106])) :=
  ⟨by decide, calc_fitness_spec [72, 105] [72, 106] (by decide)⟩

/-- C3 counterexample: on the genome "h" and the longer target "hi" the
lengths differ, yet calc_fitness raises no error at all: it silently
returns the sum truncated to the genome's single position, which is 0
even though the strings differ. -/
theorem calc_fitness_no_length_check_cex :
    ([104] : Dna).length ≠ ([104, 105] : Dna).length ∧
    calc_fitness [104] [104, 105] = some 0 := by
  exact ⟨by decide, rfl⟩

/-- C3 amended: calc_fitness performs no length-mismatch check.  When the
genome is strictly longer than the target it fails with an IndexError
(modelled as none), not a labelled length error; when the genome is no
longer than the target it silently returns the squared-difference sum
truncated to the genome's positions. -/
theorem calc_fitness_mismatch_behavior (source target : Dna) :
    (target.length < source.length → calc_fitness source target = none) ∧
    (source.length ≤ target.length →
      calc_fitness source target = some (sqDiffSum source target)) :=
  ⟨fun h => calc_fitness_eq_none_of_lt h, fun h => calc_fitness_eq_some_of_le h⟩

theorem calc_fitness_mismatch_behavior_witness :
    ([104] : Dna).length < ([104, 105] : Dna).length ∧
    calc_fitness [104, 105] [104] = none :=
  ⟨by decide, (calc_fitness_mismatch_behavior [104, 105] [104]).1 (by decide)⟩

/-! ### Pool lemmas -/

theorem calc_fitness_getD_nonneg : ∀ s t : Dna, 0 ≤ (calc_fitness s t).getD 0
  | [], _ => by simp [calc_fitness]
  | _ :: _, [] => by simp [calc_fitness]
  | s :: ss, t :: ts => by
    have ih := calc_fitness_getD_nonneg ss ts
    cases hr : calc_fitness ss ts with
    | none => simp [calc_fitness, hr]
    | some v =>
      rw [hr] at ih
      simp only [Option.getD_some] at ih
      have hnn : 0 ≤ (t - s) ^ 2 + v := add_nonneg (sq_nonneg _) ih
      simp [calc_fitness, hr, hnn]

theorem mutate_fitness_nonneg (p1 p2 : Candidate) (target : Dna)
    (a b c : Nat) (e : Int) : 0 ≤ (mutate p1 p2 target a b c e).fitness := by
  simp only [mutate]
  exact calc_fitness_getD_nonneg _ _

theorem childOf_fitness_nonneg (target : Dna) (l : List Candidate) (d : Draws) :
    0 ≤ (childOf target l d).fitness :=
  mutate_fitness_nonneg _ _ _ _ _ _ _

theorem sortPool_perm (l : List Candidate) : (sortPool l).Perm l :=
  List.perm_insertionSort fitLe l

theorem sortPool_length (l : List Candidate) : (sortPool l).length = l.length :=
  List.length_insertionSort fitLe l

theorem sortPool_sorted (l : List Candidate) : List.Sorted fitLe (sortPool l) :=
  List.sorted_insertionSort fitLe l

theorem sortPool_ne_nil {l : List Candidate} (h : l ≠ []) : sortPool l ≠ [] := by
  intro hc
  apply h
  have := sortPool_length l
  rw [hc] at this
  exact List.eq_nil_of_length_eq_zero this.symm

theorem stepPool_length (target : Dna) (l : List Candidate) (d : Draws) :
    (stepPool target l d).length = l.length := by
  unfold stepPool
  by_cases hc : (childOf target l d).fitness < ((sortPool l).getLastD noCand).fitness
  · rw [if_pos hc]
    rcases Classical.em (sortPool l = []) with hnil | hne
    · rw [hnil] at hc
      have := childOf_fitness_nonneg target l d
      simp only [List.getLastD_nil, noCand] at hc
      omega
    · have hpos : 0 < (sortPool l).length := List.length_pos.mpr hne
      simp [List.length_dropLast, sortPool_length l] at hpos ⊢
      omega
  · rw [if_neg hc]
    exact sortPool_length l

/-- C1: one generational step inserts the child exactly when its fitness is
strictly below the worst (last) member of the sorted pool; insertion
overwrites that last slot only, and otherwise the pool is left as the
sorted pool, a permutation of the original population. -/
theorem elitist_replacement (target : Dna) (gene_pool : List Candidate) (d : Draws)
    (h : gene_pool ≠ []) :
    (sortPool gene_pool).Perm gene_pool ∧
    (¬ (childOf target gene_pool d).fitness <
        ((sortPool gene_pool).getLastD noCand).fitness →
      stepPool target gene_pool d = sortPool gene_pool) ∧
    ((childOf target gene_pool d).fitness <
        ((sortPool gene_pool).getLastD noCand).fitness →
      (stepPool target gene_pool d).length = (sortPool gene_pool).length ∧
      (∀ i, i + 1 < (sortPool gene_pool).length →
        (stepPool target gene_pool d)[i]? = (sortPool gene_pool)[i]?) ∧
      (stepPool target gene_pool d)[(sortPool gene_pool).length - 1]? =
        some (childOf target gene_pool d)) := by
  have hsne : sortPool gene_pool ≠ [] := sortPool_ne_nil h
  have hspos : 0 < (sortPool gene_pool).length := List.length_pos.mpr hsne
  refine ⟨sortPool_perm gene_pool, ?_, ?_⟩
  · intro hnot
    simp only [stepPool, if_neg hnot]
  · intro hlt
    have hstep : stepPool target gene_pool d =
        (sortPool gene_pool).dropLast ++ [childOf target gene_pool d] := by
      simp only [stepPool, if_pos hlt]
    refine ⟨?_, ?_, ?_⟩
    · rw [hstep]
      simp [List.length_dropLast]
      omega
    · intro i hi
      rw [hstep]
      rw [List.getElem?_append_left (by simp [List.length_dropLast]; omega)]
      rw [List.dropLast_eq_take, List.getElem?_take]
      simp only [if_pos (by omega : i < (sortPool gene_pool).length - 1)]
    · rw [hstep]
      rw [List.getElem?_append_right (by simp [List.length_dropLast])]
      simp [List.length_dropLast]

theorem elitist_replacement_witness :
    poolW ≠ [] ∧
    ((sortPool poolW).Perm poolW ∧
     (¬ (childOf tgtW poolW dW).fitness < ((sortPool poolW).getLastD noCand).fitness →
       stepPool tgtW poolW dW = sortPool poolW) ∧
     ((childOf tgtW poolW dW).fitness < ((sortPool poolW).getLastD noCand).fitness →
       (stepPool tgtW poolW dW).length = (sortPool poolW).length ∧
       (∀ i, i + 1 < (sortPool poolW).length →
         (stepPool tgtW poolW dW)[i]? = (sortPool poolW)[i]?) ∧
       (stepPool tgtW poolW dW)[(sortPool poolW).length - 1]? =
         some (childOf tgtW poolW dW))) :=
  ⟨by decide, elitist_replacement tgtW poolW dW (by decide)⟩

/-! ### Crossover slice lemmas -/

theorem setSlice_length {A B : Dna} {start stop : Nat} (h1 : start ≤ stop)
    (h2 : stop ≤ A.length) (h3 : stop ≤ B.length) :
    (setSlice A start stop B).length = A.length := by
  simp [setSlice]
  omega

theorem setSlice_getElem? {A B : Dna} {start stop : Nat} (h1 : start ≤ stop)
    (h2 : stop ≤ A.length) (h3 : stop ≤ B.length) (k : Nat) :
    (setSlice A start stop B)[k]? =
      if start ≤ k ∧ k < stop then B[k]? else A[k]? := by
  have htake : (A.take start).length = start := by
    simp
    omega
  have hmid : ((B.drop start).take (stop - start)).length = stop - start := by
    simp
    omega
  unfold setSlice
  by_cases hks : k < start
  · rw [List.getElem?_append_left (by rw [List.length_append, htake, hmid]; omega)]
    rw [List.getElem?_append_left (by rw [htake]; omega)]
    rw [List.getElem?_take]
    rw [if_pos hks, if_neg (by omega)]
  · by_cases hkst : k < stop
    · rw [List.getElem?_append_left (by rw [List.length_append, htake, hmid]; omega)]
      rw [List.getElem?_append_right (by rw [htake]; omega)]
      rw [htake, List.getElem?_take, if_pos (by omega), List.getElem?_drop]
      rw [if_pos (by omega)]
      congr 1
      omega
    · rw [List.getElem?_append_right (by rw [List.length_append, htake, hmid]; omega)]
      rw [List.length_append, htake, hmid, List.getElem?_drop]
      rw [if_neg (by omega)]
      congr 1
      omega

/-- C4: for equal-length parents and in-range draw outcomes, the source's
mutate builds exactly the child the spec describes: parentA's genome with
the ordered crossover range overwritten from parentB, one position's
ordinal bumped by delta, and the fitness against the target attached. -/
theorem reproduce_matches_spec (parentA parentB : Candidate) (target : Dna)
    (i j pos : Nat) (delta : Int)
    (hlen : parentB.dna.length = parentA.dna.length)
    (hi : i < parentA.dna.length) (hj : j < parentA.dna.length)
    (hpos : pos < parentA.dna.length) :
    mutate parentA parentB target i j pos delta =
      reproduceSpec parentA parentB target i j pos delta := by
  have hlole : min i j ≤ max i j := min_le_max
  have hhile : max i j ≤ parentA.dna.length := by omega
  have hhiB : max i j ≤ parentB.dna.length := by omega
  have hstart : (if i > j then j else i) = min i j := by split_ifs with h <;> omega
  have hstop : (if i > j then i else j) = max i j := by split_ifs with h <;> omega
  have hSlen : (setSlice parentA.dna (min i j) (max i j) parentB.dna).length =
      parentA.dna.length := setSlice_length hlole hhile hhiB
  have hgetA : ∀ m, m < parentA.dna.length →
      parentA.dna[m]? = some (parentA.dna.getD m 0) := fun m hm => by
    rw [List.getElem?_eq_getElem hm, List.getD_eq_getElem _ _ hm]
  have hgetB : ∀ m, m < parentB.dna.length →
      parentB.dna[m]? = some (parentB.dna.getD m 0) := fun m hm => by
    rw [List.getElem?_eq_getElem hm, List.getD_eq_getElem _ _ hm]
  have hmut_dna : (mutate parentA parentB target i j pos delta).dna =
      (setSlice parentA.dna (min i j) (max i j) parentB.dna).set pos
        ((setSlice parentA.dna (min i j) (max i j) parentB.dna).getD pos 0 + delta) := by
    simp only [mutate, hstart, hstop]
  have hSgetD : ∀ m, m < parentA.dna.length →
      (setSlice parentA.dna (min i j) (max i j) parentB.dna).getD m 0 =
        if min i j ≤ m ∧ m < max i j then parentB.dna.getD m 0
        else parentA.dna.getD m 0 := by
    intro m hm
    rw [List.getD_eq_getElem?_getD, setSlice_getElem? hlole hhile hhiB]
    by_cases hc : min i j ≤ m ∧ m < max i j
    · rw [if_pos hc, if_pos hc, hgetB m (by omega), Option.getD_some]
    · rw [if_neg hc, if_neg hc, hgetA m hm, Option.getD_some]
  have hspec_dna : (reproduceSpec parentA parentB target i j pos delta).dna =
      (List.range ((List.range parentA.dna.length).map
        (fun k => if min i j ≤ k ∧ k < max i j then parentB.dna.getD k 0
          else parentA.dna.getD k 0)).length).map
        (fun k => if k = pos then
            ((List.range parentA.dna.length).map
              (fun m => if min i j ≤ m ∧ m < max i j then parentB.dna.getD m 0
                else parentA.dna.getD m 0)).getD k 0 + delta
          else ((List.range parentA.dna.length).map
              (fun m => if min i j ≤ m ∧ m < max i j then parentB.dna.getD m 0
                else parentA.dna.getD m 0)).getD k 0) := by
    simp only [reproduceSpec]
  have hCgetD : ∀ m, m < parentA.dna.length →
      ((List.range parentA.dna.length).map
        (fun k => if min i j ≤ k ∧ k < max i j then parentB.dna.getD k 0
          else parentA.dna.getD k 0)).getD m 0 =
        if min i j ≤ m ∧ m < max i j then parentB.dna.getD m 0
        else parentA.dna.getD m 0 := by
    intro m hm
    rw [List.getD_eq_getElem?_getD, List.getElem?_map, List.getElem?_range hm]
    rfl
  have hdna : (mutate parentA parentB target i j pos delta).dna =
      (reproduceSpec parentA parentB target i j pos delta).dna := by
    rw [hmut_dna, hspec_dna]
    refine List.ext_getElem? ?_
    intro k
    by_cases hk : k < parentA.dna.length
    · rw [List.getElem?_map, List.getElem?_range (by simpa using hk), Option.map_some']
      by_cases hkp : k = pos
      · subst hkp
        rw [List.getElem?_set_self (by omega)]
        congr 1
        rw [if_pos rfl, hCgetD k hk, hSgetD k hk]
      · rw [List.getElem?_set_ne (by omega)]
        rw [setSlice_getElem? hlole hhile hhiB]
        rw [if_neg hkp, hCgetD k hk]
        by_cases hc : min i j ≤ k ∧ k < max i j
        · rw [if_pos hc, if_pos hc, hgetB k (by omega)]
        · rw [if_neg hc, if_neg hc, hgetA k hk]
    · rw [List.getElem?_eq_none (by rw [List.length_set, hSlen]; omega)]
      rw [List.getElem?_eq_none (by simp; omega)]
  have hfin : ∀ c1 c2 : Dna, c1 = c2 →
      ({ dna := c1, fitness := (calc_fitness c1 target).getD 0 } : Candidate) =
        { dna := c2, fitness := (calc_fitness c2 target).getD 0 } := by
    intro c1 c2 h
    rw [h]
  have h1 : mutate parentA parentB target i j pos delta =
      { dna := (mutate parentA parentB target i j pos delta).dna,
        fitness := (calc_fitness (mutate parentA parentB target i j pos delta).dna
          target).getD 0 } := rfl
  have h2 : reproduceSpec parentA parentB target i j pos delta =
      { dna := (reproduceSpec parentA parentB target i j pos delta).dna,
        fitness := (calc_fitness (reproduceSpec parentA parentB target i j pos delta).dna
          target).getD 0 } := rfl
  rw [h1, h2]
  exact hfin _ _ hdna

theorem reproduce_matches_spec_witness :
    (([67, 68] : Dna).length = ([65, 66] : Dna).length ∧
      0 < ([65, 66] : Dna).length ∧ 1 < ([65, 66] : Dna).length) ∧
    mutate { dna := [65, 66], fitness := 0 } { dna := [67, 68], fitness := 0 } tgtW 0 1 1 1 =
      reproduceSpec { dna := [65, 66], fitness := 0 } { dna := [67, 68], fitness := 0 }
        tgtW 0 1 1 1 :=
  ⟨⟨by decide, by decide, by decide⟩,
    reproduce_matches_spec { dna := [65, 66], fitness := 0 }
      { dna := [67, 68], fitness := 0 } tgtW 0 1 1 1
      (by decide) (by decide) (by decide) (by decide)⟩

/-- C9: the point mutation neither wraps nor clamps: two parents whose
genomes consist of the space character, a member of GENES, can produce a
child containing ordinal 31, which lies below every member of GENES. -/
theorem mutation_escapes_alphabet :
    (∀ c ∈ ({ dna := [32, 32], fitness := 0 } : Candidate).dna, c ∈ GENES) ∧
    (∃ c ∈ (mutate { dna := [32, 32], fitness := 0 } { dna := [32, 32], fitness := 0 }
      [65, 66] 0 0 0 (-1)).dna, c ∉ GENES) := by decide

/-- C5: reproduction leaves every pre-existing heap object — in particular
both parents' dna lists, and with them the parents' genome and fitness
values — untouched; the child record refers to a freshly allocated list;
and at the pool level a generational step only ever installs candidates
that are either members of the existing (sorted) pool or the wholly new
child value. -/
theorem reproduce_no_side_effects (heap : List Dna) (parent1 parent2 : CandR)
    (target : Dna) (start0 stop0 char_pos : Nat) (delta : Int)
    (target2 : Dna) (l : List Candidate) (d : Draws) :
    (∀ r, r < heap.length →
      (mutateH heap parent1 parent2 target start0 stop0 char_pos delta).1[r]? = heap[r]?) ∧
    (mutateH heap parent1 parent2 target start0 stop0 char_pos delta).2.dnaRef =
      heap.length ∧
    (∀ c ∈ stepPool target2 l d, c ∈ sortPool l ∨ c = childOf target2 l d) := by
  refine ⟨?_, rfl, ?_⟩
  · intro r hr
    simp only [mutateH]
    rw [List.getElem?_set_ne (by omega)]
    rw [List.getElem?_set_ne (by omega)]
    rw [List.getElem?_append_left hr]
  · intro c hc
    simp only [stepPool] at hc
    split at hc
    · rcases List.mem_append.mp hc with h1 | h2
      · exact Or.inl (List.Sublist.mem h1 (List.dropLast_sublist _))
      · exact Or.inr (List.mem_singleton.mp h2)
    · exact Or.inl hc

theorem reproduce_no_side_effects_witness :
    (0 < ([[32, 32]] : List Dna).length ∧
      (mutateH [[32, 32]] ⟨0, 0⟩ ⟨0, 0⟩ tgtW 0 0 0 1).1[0]? = ([[32, 32]] : List Dna)[0]?) ∧
    (mutateH [[32, 32]] ⟨0, 0⟩ ⟨0, 0⟩ tgtW 0 0 0 1).2.dnaRef = ([[32, 32]] : List Dna).length ∧
    (∀ c ∈ stepPool tgtW poolW dW, c ∈ sortPool poolW ∨ c = childOf tgtW poolW dW) :=
  ⟨⟨by decide,
    (reproduce_no_side_effects [[32, 32]] ⟨0, 0⟩ ⟨0, 0⟩ tgtW 0 0 0 1 tgtW poolW dW).1
      0 (by decide)⟩,
   (reproduce_no_side_effects [[32, 32]] ⟨0, 0⟩ ⟨0, 0⟩ tgtW 0 0 0 1 tgtW poolW dW).2.1,
   (reproduce_no_side_effects [[32, 32]] ⟨0, 0⟩ ⟨0, 0⟩ tgtW 0 0 0 1 tgtW poolW dW).2.2⟩

/-! ### Invariant lemmas -/

theorem stepPool_mem_cases (target : Dna) (l : List Candidate) (d : Draws) :
    ∀ c ∈ stepPool target l d, c ∈ sortPool l ∨ c = childOf target l d := by
  intro c hc
  simp only [stepPool] at hc
  split at hc
  · rcases List.mem_append.mp hc with h1 | h2
    · exact Or.inl (List.Sublist.mem h1 (List.dropLast_sublist _))
    · exact Or.inr (List.mem_singleton.mp h2)
  · exact Or.inl hc

theorem mutate_dna_length (p1 p2 : Candidate) (target : Dna) (a b c : Nat) (e : Int)
    (hp : p2.dna.length = p1.dna.length)
    (ha : a < p1.dna.length) (hb : b < p1.dna.length) :
    (mutate p1 p2 target a b c e).dna.length = p1.dna.length := by
  have hstart : (if a > b then b else a) = min a b := by split_ifs with h <;> omega
  have hstop : (if a > b then a else b) = max a b := by split_ifs with h <;> omega
  simp only [mutate, hstart, hstop, List.length_set]
  exact setSlice_length min_le_max (by omega) (by omega)

theorem random_parent_mem (l : List Candidate) (idx : Nat) (h : idx < l.length) :
    random_parent l idx ∈ l := by
  unfold random_parent
  rw [List.getD_eq_getElem _ _ h]
  exact List.getElem_mem h

theorem stepPool_invariant (target : Dna) (N : Nat) (l : List Candidate) (d : Draws)
    (hv : d.Valid N target.length) (hlen : l.length = N)
    (hall : ∀ c ∈ l, c.dna.length = target.length) :
    (stepPool target l d).length = N ∧
      ∀ c ∈ stepPool target l d, c.dna.length = target.length := by
  obtain ⟨hp1, hp2, hs0, hs1, hcp, _, _⟩ := hv
  refine ⟨by rw [stepPool_length, hlen], ?_⟩
  intro c hc
  rcases stepPool_mem_cases target l d c hc with hmem | hchild
  · exact hall c ((sortPool_perm l).mem_iff.mp hmem)
  · have hsl : (sortPool l).length = N := by rw [sortPool_length, hlen]
    have hm1 : random_parent (sortPool l) d.p1 ∈ l :=
      (sortPool_perm l).mem_iff.mp (random_parent_mem _ _ (by omega))
    have hm2 : random_parent (sortPool l) d.p2 ∈ l :=
      (sortPool_perm l).mem_iff.mp (random_parent_mem _ _ (by omega))
    have hL1 : (random_parent (sortPool l) d.p1).dna.length = target.length := hall _ hm1
    have hL2 : (random_parent (sortPool l) d.p2).dna.length = target.length := hall _ hm2
    rw [hchild]
    unfold childOf
    rw [mutate_dna_length _ _ _ _ _ _ _ (by rw [hL1, hL2]) (by omega) (by omega), hL1]

/-- C6: starting from the initialized population, after any number of
generational steps with in-range random draws the population holds exactly
N candidates and every genome has the target's length. -/
theorem population_invariant (choice : Nat → Nat → Int) (N : Nat) (target : Dna)
    (draws : Nat → Draws) (hd : ∀ g, (draws g).Valid N target.length) :
    ∀ g, (pools target draws (initPool choice N target) g).length = N ∧
      ∀ c ∈ pools target draws (initPool choice N target) g,
        c.dna.length = target.length := by
  intro g
  induction g with
  | zero =>
    constructor
    · simp [pools, initPool]
    · intro c hc
      simp only [pools, initPool, List.mem_map] at hc
      obtain ⟨i, _, rfl⟩ := hc
      simp
  | succ g ih =>
    have := stepPool_invariant target N
      (pools target draws (initPool choice N target) g) (draws g) (hd g) ih.1 ih.2
    exact this

theorem population_invariant_witness :
    Draws.Valid 2 tgtW.length dW ∧
    ((pools tgtW (fun _ => dW) (initPool (fun _ _ => (65 : Int)) 2 tgtW) 3).length = 2 ∧
      ∀ c ∈ pools tgtW (fun _ => dW) (initPool (fun _ _ => (65 : Int)) 2 tgtW) 3,
        c.dna.length = tgtW.length) :=
  ⟨by decide,
    population_invariant (fun _ _ => (65 : Int)) 2 tgtW (fun _ => dW)
      (fun _ => (by decide : Draws.Valid 2 tgtW.length dW)) 3⟩

/-! ### Monotonicity of the recorded best -/

theorem sortPool_headD_le (l : List Candidate) (c : Candidate) (hc : c ∈ l) :
    ((sortPool l).headD noCand).fitness ≤ c.fitness := by
  have hs := sortPool_sorted l
  have hmem : c ∈ sortPool l := (sortPool_perm l).mem_iff.mpr hc
  cases hsp : sortPool l with
  | nil =>
    rw [hsp] at hmem
    cases hmem
  | cons a as =>
    rw [hsp] at hmem hs
    simp only [List.headD_cons]
    rcases List.mem_cons.mp hmem with rfl | hmm
    · exact le_refl _
    · exact List.rel_of_sorted_cons hs c hmm

theorem stepPool_min_le (target : Dna) (l : List Candidate) (d : Draws) (h : l ≠ []) :
    ∃ c ∈ stepPool target l d, c.fitness ≤ ((sortPool l).headD noCand).fitness := by
  have hne := sortPool_ne_nil h
  obtain ⟨a, as, hsp⟩ := List.exists_cons_of_ne_nil hne
  simp only [stepPool, hsp, List.headD_cons]
  by_cases hcond : (childOf target l d).fitness < ((a :: as).getLastD noCand).fitness
  · rw [if_pos hcond]
    cases as with
    | nil =>
      refine ⟨childOf target l d, by simp, ?_⟩
      simp only [List.getLastD_cons, List.getLastD_nil] at hcond
      exact le_of_lt hcond
    | cons b bs =>
      exact ⟨a, by simp, le_refl _⟩
  · rw [if_neg hcond]
    exact ⟨a, List.mem_cons_self a as, le_refl _⟩

theorem pools_ne_nil (target : Dna) (draws : Nat → Draws) (pool0 : List Candidate)
    (h : pool0 ≠ []) : ∀ k, pools target draws pool0 k ≠ [] := by
  intro k
  induction k with
  | zero => exact h
  | succ k ih =>
    intro hc
    have hlen := stepPool_length target (pools target draws pool0 k) (draws k)
    have hc2 : stepPool target (pools target draws pool0 k) (draws k) = [] := hc
    rw [hc2] at hlen
    exact ih (List.eq_nil_of_length_eq_zero hlen.symm)

/-- C7: the best fitness appended to the fittest history never increases
from one generation to the next. -/
theorem history_monotone (target : Dna) (draws : Nat → Draws) (pool0 : List Candidate)
    (h : pool0 ≠ []) (g : Nat) :
    (recordAt target draws pool0 (g + 1)).fitness ≤
      (recordAt target draws pool0 g).fitness := by
  obtain ⟨c, hcm, hcle⟩ :=
    stepPool_min_le target (pools target draws pool0 g) (draws g)
      (pools_ne_nil target draws pool0 h g)
  have h1 : (recordAt target draws pool0 (g + 1)).fitness ≤ c.fitness :=
    sortPool_headD_le _ c hcm
  exact le_trans h1 hcle

theorem history_monotone_witness :
    poolW ≠ [] ∧
    (recordAt tgtW (fun _ => dW) poolW 1).fitness ≤
      (recordAt tgtW (fun _ => dW) poolW 0).fitness :=
  ⟨by decide, history_monotone tgtW (fun _ => dW) poolW (by decide) 0⟩

/-! ### Termination characterization -/

theorem runLoop_some_iff (target : Dna) (draws : Nat → Draws) (pool0 : List Candidate) :
    ∀ (fuel k g : Nat) (p : List Candidate),
      runLoop target draws fuel (pools target draws pool0 k) k = some (g, p) ↔
        (k ≤ g ∧ g < k + fuel ∧ stopsAt target draws pool0 g ∧
          (∀ g', k ≤ g' → g' < g → ¬ stopsAt target draws pool0 g') ∧
          p = pools target draws pool0 (g + 1)) := by
  intro fuel
  induction fuel with
  | zero =>
    intro k g p
    simp only [runLoop]
    constructor
    · intro hc
      cases hc
    · rintro ⟨h1, h2, _⟩
      omega
  | succ fuel ih =>
    intro k g p
    have e : runLoop target draws (fuel + 1) (pools target draws pool0 k) k =
        (if ((pools target draws pool0 (k + 1)).headD noCand).fitness = 0
         then some (k, pools target draws pool0 (k + 1))
         else runLoop target draws fuel (pools target draws pool0 (k + 1)) (k + 1)) := rfl
    rw [e]
    by_cases hstop : stopsAt target draws pool0 k
    · rw [if_pos (show ((pools target draws pool0 (k + 1)).headD noCand).fitness = 0 from hstop)]
      constructor
      · intro hsome
        have hpair := Option.some.inj hsome
        have hg : k = g := congrArg Prod.fst hpair
        have hp : pools target draws pool0 (k + 1) = p := congrArg Prod.snd hpair
        subst hg
        refine ⟨le_refl _, by omega, hstop, ?_, hp.symm⟩
        intro g' h1 h2
        omega
      · rintro ⟨h1, h2, h3, h4, h5⟩
        have hgk : g = k := by
          by_contra hne
          exact h4 k (le_refl k) (by omega) hstop
        subst hgk
        rw [h5]
    · rw [if_neg (show ¬ ((pools target draws pool0 (k + 1)).headD noCand).fitness = 0
        from hstop)]
      rw [ih (k + 1) g p]
      constructor
      · rintro ⟨h1, h2, h3, h4, h5⟩
        refine ⟨by omega, by omega, h3, ?_, h5⟩
        intro g' hg1 hg2
        by_cases hq : g' = k
        · rw [hq]
          exact hstop
        · exact h4 g' (by omega) hg2
      · rintro ⟨h1, h2, h3, h4, h5⟩
        have hgk : g ≠ k := fun he => hstop (he ▸ h3)
        refine ⟨by omega, by omega, h3, ?_, h5⟩
        intro g' hg1 hg2
        exact h4 g' (by omega) hg2

theorem runLoop_none_iff (target : Dna) (draws : Nat → Draws) (pool0 : List Candidate) :
    ∀ (fuel k : Nat),
      runLoop target draws fuel (pools target draws pool0 k) k = none ↔
        ∀ g', k ≤ g' → g' < k + fuel → ¬ stopsAt target draws pool0 g' := by
  intro fuel
  induction fuel with
  | zero =>
    intro k
    simp only [runLoop]
    constructor
    · intro _ g' h1 h2
      omega
    · intro _
      trivial
  | succ fuel ih =>
    intro k
    have e : runLoop target draws (fuel + 1) (pools target draws pool0 k) k =
        (if ((pools target draws pool0 (k + 1)).headD noCand).fitness = 0
         then some (k, pools target draws pool0 (k + 1))
         else runLoop target draws fuel (pools target draws pool0 (k + 1)) (k + 1)) := rfl
    rw [e]
    by_cases hstop : stopsAt target draws pool0 k
    · rw [if_pos (show ((pools target draws pool0 (k + 1)).headD noCand).fitness = 0 from hstop)]
      constructor
      · intro hc
        cases hc
      · intro hall
        exact (hall k (le_refl k) (by omega) hstop).elim
    · rw [if_neg (show ¬ ((pools target draws pool0 (k + 1)).headD noCand).fitness = 0
        from hstop)]
      rw [ih (k + 1)]
      constructor
      · intro hall g' h1 h2
        by_cases hq : g' = k
        · rw [hq]
          exact hstop
        · exact hall g' (by omega) (by omega)
      · intro hall g' h1 h2
        exact hall g' (by omega) (by omega)

/-- C8: with any amount of fuel, the loop returns exactly at the first
iteration whose end-of-step check finds a fitness-0 candidate in front of
the pool, together with the pool of that moment; and it runs out of fuel
exactly when no iteration within the fuel satisfies that check — there is
no other way to stop, in particular no generation cap, so an iteration
with nonzero best fitness always continues into the next one. -/
theorem termination_iff_zero_fitness (target : Dna) (draws : Nat → Draws)
    (pool0 : List Candidate) (fuel g : Nat) (p : List Candidate) :
    (runLoop target draws fuel pool0 0 = some (g, p) ↔
      (g < fuel ∧ stopsAt target draws pool0 g ∧
        (∀ g' < g, ¬ stopsAt target draws pool0 g') ∧
        p = pools target draws pool0 (g + 1))) ∧
    (runLoop target draws fuel pool0 0 = none ↔
      ∀ g' < fuel, ¬ stopsAt target draws pool0 g') := by
  have e : runLoop target draws fuel pool0 0 =
      runLoop target draws fuel (pools target draws pool0 0) 0 := rfl
  constructor
  · rw [e, runLoop_some_iff target draws pool0 fuel 0 g p]
    constructor
    · rintro ⟨_, h2, h3, h4, h5⟩
      exact ⟨by omega, h3, fun g' hg => h4 g' (by omega) hg, h5⟩
    · rintro ⟨h1, h2, h3, h4⟩
      exact ⟨by omega, by omega, h2, fun g' _ hg => h3 g' hg, h4⟩
  · rw [e, runLoop_none_iff target draws pool0 fuel 0]
    constructor
    · intro hall g' hg
      exact hall g' (by omega) (by omega)
    · intro hall g' _ hg
      exact hall g' (by omega)

/-! ### Recorded winner on convergence -/

theorem pools_length (target : Dna) (draws : Nat → Draws) (pool0 : List Candidate) :
    ∀ k, (pools target draws pool0 k).length = pool0.length := by
  intro k
  induction k with
  | zero => rfl
  | succ k ih =>
    have e : pools target draws pool0 (k + 1) =
        stepPool target (pools target draws pool0 k) (draws k) := rfl
    rw [e, stepPool_length, ih]

theorem stepPool_headD (target : Dna) (l : List Candidate) (d : Draws)
    (h2 : 2 ≤ l.length) :
    (stepPool target l d).headD noCand = (sortPool l).headD noCand := by
  have hsl : 2 ≤ (sortPool l).length := by
    rw [sortPool_length]
    exact h2
  have hne : sortPool l ≠ [] := by
    intro hc
    rw [hc] at hsl
    simp at hsl
  obtain ⟨a, as, hsp⟩ := List.exists_cons_of_ne_nil hne
  cases as with
  | nil =>
    rw [hsp] at hsl
    simp at hsl
  | cons b bs =>
    simp only [stepPool, hsp]
    by_cases hcond : (childOf target l d).fitness <
        ((a :: b :: bs).getLastD noCand).fitness
    · rw [if_pos hcond]
      have hdl : (a :: b :: bs).dropLast = a :: (b :: bs).dropLast := rfl
      rw [hdl, List.cons_append]
      rfl
    · rw [if_neg hcond]

/-- C10: on a run with at least two candidates, the candidate recorded
into the fittest history at an iteration is the very gene_pool[0] entry
the termination check examines at the end of that iteration (replacement
only overwrites the last slot), so when the run stops the last history
entry is the winning fitness-0 candidate, the front of the returned
pool. -/
theorem convergence_records_winner (target : Dna) (draws : Nat → Draws)
    (pool0 : List Candidate) (fuel g : Nat) (p : List Candidate)
    (hN : 2 ≤ pool0.length)
    (hrun : runLoop target draws fuel pool0 0 = some (g, p)) :
    (∀ k, (stepPool target (pools target draws pool0 k) (draws k)).headD noCand =
      recordAt target draws pool0 k) ∧
    (historyUpTo target draws pool0 g).getLast? =
      some (recordAt target draws pool0 g) ∧
    (recordAt target draws pool0 g).fitness = 0 ∧
    recordAt target draws pool0 g = p.headD noCand := by
  have hsame : ∀ k,
      (stepPool target (pools target draws pool0 k) (draws k)).headD noCand =
        recordAt target draws pool0 k := by
    intro k
    unfold recordAt
    exact stepPool_headD target _ (draws k)
      (by rw [pools_length target draws pool0 k]; exact hN)
  have e : runLoop target draws fuel pool0 0 =
      runLoop target draws fuel (pools target draws pool0 0) 0 := rfl
  rw [e, runLoop_some_iff target draws pool0 fuel 0 g p] at hrun
  obtain ⟨_, _, hstop, _, hp⟩ := hrun
  refine ⟨hsame, ?_, ?_, ?_⟩
  · unfold historyUpTo
    rw [List.range_succ, List.map_append]
    simp
  · have hrec := hsame g
    rw [← hrec]
    exact hstop
  · rw [hp]
    exact (hsame g).symm

theorem convergence_records_winner_witness :
    (2 ≤ poolW2.length ∧ runLoop tgtW drawsW 1 poolW2 0 = some (0, poolW2done)) ∧
    ((∀ k, (stepPool tgtW (pools tgtW drawsW poolW2 k) (drawsW k)).headD noCand =
        recordAt tgtW drawsW poolW2 k) ∧
      (historyUpTo tgtW drawsW poolW2 0).getLast? =
        some (recordAt tgtW drawsW poolW2 0) ∧
      (recordAt tgtW drawsW poolW2 0).fitness = 0 ∧
      recordAt tgtW drawsW poolW2 0 = poolW2done.headD noCand) :=
  ⟨⟨by decide, by decide⟩,
    convergence_records_winner tgtW drawsW poolW2 1 0 poolW2done (by decide) (by decide)⟩

end HelloGP
